import Mathlib

set_option maxRecDepth 100000
set_option maxHeartbeats 1000000

/-!
# Verification of the Camaro-Tracker aggregation core (src/scraper.py)

Shallow embedding of the pure core of `src/scraper.py`:
strings are modelled as lists of Unicode code points (`List Nat`), Python's
byte-level hashing (`hashlib.md5(...).hexdigest()[:12]`) is implemented in
full over UTF-8 encoded bytes, and the aggregation / dedup / merge / sort /
truncate section of `main` is modelled as a pure function on listing records.
Regular-expression fragments used by the source (`\b69\b`,
`\b(196[0-8]|197[0-9])\b`, `US \$([\d,]+)`, `/$`, `\s+`) are translated into
explicit scanners over code-point lists (ASCII reading of `\w`, `\d`, `\s`,
which covers every string the program manipulates).
-/

/-- Strings are modelled as lists of Unicode code points. -/
abbrev Str := List Nat

/-- Code points of a Lean string literal, for concrete inputs. -/
def str (s : String) : Str := s.data.map Char.toNat

/-- ASCII lower-casing of one code point (Python `str.lower` on the
program's ASCII data). -/
def pyLower (c : Nat) : Nat := if 65 ≤ c ∧ c ≤ 90 then c + 32 else c

/-- `str.lower` over a whole string. -/
def lowerStr (s : Str) : Str := s.map pyLower

/-- Python whitespace (`str.strip` / regex `\s`, ASCII reading):
space, tab, newline, carriage return, vertical tab, form feed. -/
def isSpace (c : Nat) : Bool :=
  c == 32 || c == 9 || c == 10 || c == 13 || c == 11 || c == 12

/-- Python `str.strip()`: drop whitespace from both ends. -/
def pyStrip (s : Str) : Str :=
  ((s.dropWhile isSpace).reverse.dropWhile isSpace).reverse

/-- Regex `\s+` replaced by a single space (`re.sub(r"\s+", " ", ·)`):
each maximal whitespace run collapses to one space.  The flag records
whether the previous character was part of a whitespace run. -/
def collapseWsAux : Bool → Str → Str
  | _, [] => []
  | prev, c :: cs =>
    if isSpace c then
      if prev then collapseWsAux true cs else 32 :: collapseWsAux true cs
    else c :: collapseWsAux false cs

def collapseWs (s : Str) : Str := collapseWsAux false s

/-! ## MD5 (RFC 1321) over byte lists

`uid` and `title_uid` in the source hash UTF-8 bytes with MD5 and keep the
first 12 hex digits; we implement the digest in full so that equalities and
inequalities of identities are those of the real program. -/

/-- UTF-8 encoding of one code point. -/
def utf8Char (c : Nat) : List Nat :=
  if c < 128 then [c]
  else if c < 2048 then [192 + c / 64, 128 + c % 64]
  else if c < 65536 then [224 + c / 4096, 128 + (c / 64) % 64, 128 + c % 64]
  else [240 + c / 262144, 128 + (c / 4096) % 64, 128 + (c / 64) % 64, 128 + c % 64]

/-- Python `str.encode()`: UTF-8 bytes of a string. -/
def utf8 (s : Str) : List Nat := (s.map utf8Char).flatten

def md5K : List Nat :=
  [0xd76aa478, 0xe8c7b756, 0x242070db, 0xc1bdceee,
   0xf57c0faf, 0x4787c62a, 0xa8304613, 0xfd469501,
   0x698098d8, 0x8b44f7af, 0xffff5bb1, 0x895cd7be,
   0x6b901122, 0xfd987193, 0xa679438e, 0x49b40821,
   0xf61e2562, 0xc040b340, 0x265e5a51, 0xe9b6c7aa,
   0xd62f105d, 0x02441453, 0xd8a1e681, 0xe7d3fbc8,
   0x21e1cde6, 0xc33707d6, 0xf4d50d87, 0x455a14ed,
   0xa9e3e905, 0xfcefa3f8, 0x676f02d9, 0x8d2a4c8a,
   0xfffa3942, 0x8771f681, 0x6d9d6122, 0xfde5380c,
   0xa4beea44, 0x4bdecfa9, 0xf6bb4b60, 0xbebfbc70,
   0x289b7ec6, 0xeaa127fa, 0xd4ef3085, 0x04881d05,
   0xd9d4d039, 0xe6db99e5, 0x1fa27cf8, 0xc4ac5665,
   0xf4292244, 0x432aff97, 0xab9423a7, 0xfc93a039,
   0x655b59c3, 0x8f0ccc92, 0xffeff47d, 0x85845dd1,
   0x6fa87e4f, 0xfe2ce6e0, 0xa3014314, 0x4e0811a1,
   0xf7537e82, 0xbd3af235, 0x2ad7d2bb, 0xeb86d391]

def md5S : List Nat :=
  [7, 12, 17, 22, 7, 12, 17, 22, 7, 12, 17, 22, 7, 12, 17, 22,
   5, 9, 14, 20, 5, 9, 14, 20, 5, 9, 14, 20, 5, 9, 14, 20,
   4, 11, 16, 23, 4, 11, 16, 23, 4, 11, 16, 23, 4, 11, 16, 23,
   6, 10, 15, 21, 6, 10, 15, 21, 6, 10, 15, 21, 6, 10, 15, 21]

def rotl32 (x n : Nat) : Nat := ((x <<< n) ||| (x >>> (32 - n))) % 4294967296

def md5F (i b c d : Nat) : Nat :=
  if i < 16 then (b &&& c) ||| ((b ^^^ 4294967295) &&& d)
  else if i < 32 then (d &&& b) ||| ((d ^^^ 4294967295) &&& c)
  else if i < 48 then b ^^^ c ^^^ d
  else c ^^^ (b ||| (d ^^^ 4294967295))

def md5G (i : Nat) : Nat :=
  if i < 16 then i
  else if i < 32 then (5 * i + 1) % 16
  else if i < 48 then (3 * i + 5) % 16
  else (7 * i) % 16

/-- Little-endian 32-bit word `j` of a 64-byte block. -/
def le32 (block : List Nat) (j : Nat) : Nat :=
  block.getD (4 * j) 0 + 256 * block.getD (4 * j + 1) 0 +
    65536 * block.getD (4 * j + 2) 0 + 16777216 * block.getD (4 * j + 3) 0

def md5Round (block : List Nat) (st : Nat × Nat × Nat × Nat) (i : Nat) :
    Nat × Nat × Nat × Nat :=
  let a := st.1; let b := st.2.1; let c := st.2.2.1; let d := st.2.2.2
  let f := (md5F i b c d + a + md5K.getD i 0 + le32 block (md5G i)) % 4294967296
  (d, (b + rotl32 f (md5S.getD i 0)) % 4294967296, b, c)

def md5Block (st : Nat × Nat × Nat × Nat) (block : List Nat) :
    Nat × Nat × Nat × Nat :=
  let r := (List.range 64).foldl (md5Round block) st
  ((st.1 + r.1) % 4294967296, (st.2.1 + r.2.1) % 4294967296,
   (st.2.2.1 + r.2.2.1) % 4294967296, (st.2.2.2 + r.2.2.2) % 4294967296)

/-- MD5 padding: `0x80`, zeros to 56 mod 64, then the bit length as eight
little-endian bytes. -/
def md5Pad (msg : List Nat) : List Nat :=
  let n := msg.length
  let z := (120 - (n + 1) % 64) % 64
  msg ++ [128] ++ List.replicate z 0 ++
    ((List.range 8).map fun i => ((8 * n) >>> (8 * i)) % 256)

/-- Split into 64-byte blocks (fuelled structural recursion). -/
def chunksAux : Nat → List Nat → List (List Nat)
  | 0, _ => []
  | fuel + 1, l => if l.isEmpty then [] else l.take 64 :: chunksAux fuel (l.drop 64)

def chunks64 (l : List Nat) : List (List Nat) := chunksAux l.length l

def word2bytes (w : Nat) : List Nat :=
  [w % 256, (w >>> 8) % 256, (w >>> 16) % 256, (w >>> 24) % 256]

def hexDigit (n : Nat) : Nat := if n < 10 then 48 + n else 87 + n

def byteHex (b : Nat) : Str := [hexDigit (b / 16), hexDigit (b % 16)]

/-- Lower-case hex digest of an MD5 hash (Python `hexdigest()`), as code
points. -/
def md5hex (msg : List Nat) : Str :=
  let r := (chunks64 (md5Pad msg)).foldl md5Block
    (0x67452301, 0xefcdab89, 0x98badcfe, 0x10325476)
  ((word2bytes r.1 ++ word2bytes r.2.1 ++ word2bytes r.2.2.1 ++
     word2bytes r.2.2.2).map byteHex).flatten

/-! ## Identity normalisation (`clean_url`, `uid`, `title_uid`) -/

/-- `url.split("?")[0].split("#")[0]`: the prefix before the first `?`,
then within it the prefix before the first `#`. -/
def cutQF (s : Str) : Str :=
  (s.takeWhile (fun c => !(c == 63))).takeWhile (fun c => !(c == 35))

/-- `re.sub(r"/$", "", s)`: Python's `$` matches at the end of the string
or just before a final newline, so one trailing `/` is removed in either
position. -/
def subSlashEnd (s : Str) : Str :=
  if s.reverse.head? == some 47 then s.reverse.tail.reverse
  else if s.reverse.head? == some 10 && s.reverse.tail.head? == some 47 then
    (10 :: s.reverse.tail.tail).reverse
  else s

/-- `clean_url` from the source: strip query and fragment, drop one
trailing slash, lower-case, strip surrounding whitespace. -/
def clean_url (url : Str) : Str :=
  pyStrip (lowerStr (subSlashEnd (cutQF url)))

/-- `uid` from the source: first 12 hex digits of the MD5 of the cleaned
URL's UTF-8 bytes. -/
def uid (url : Str) : Str := (md5hex (utf8 (clean_url url))).take 12

/-- `title_uid` from the source: hash of
`re.sub(r"\s+", " ", title.lower().strip()) + "|" + source.lower()`. -/
def title_uid (title source : Str) : Str :=
  (md5hex (utf8 (collapseWs (pyStrip (lowerStr title)) ++ [124] ++ lowerStr source))).take 12

/-! ## Relevance filter (`is_1969_camaro`) -/

/-- Regex word character (`\w`, ASCII reading): letters, digits,
underscore. -/
def isWordChar (c : Nat) : Bool :=
  (48 ≤ c && c ≤ 57) || (65 ≤ c && c ≤ 90) || (97 ≤ c && c ≤ 122) || c == 95

/-- Does `pat` occur at the head of `s`? -/
def beginsWith : Str → Str → Bool
  | [], _ => true
  | _ :: _, [] => false
  | p :: ps, c :: cs => p == c && beginsWith ps cs

/-- Python `pat in s` (substring containment). -/
def containsSub (pat : Str) : Str → Bool
  | [] => beginsWith pat []
  | c :: cs => beginsWith pat (c :: cs) || containsSub pat cs

/-- Does `pat` occur at the head of `s` with a word boundary after it
(`pat` consists of word characters)? -/
def tokenAt (pat : Str) (s : Str) : Bool :=
  beginsWith pat s &&
    (match s.drop pat.length with
     | [] => true
     | c :: _ => !isWordChar c)

/-- Scanner for `\b pat \b`: `prev` is the character before the current
position (none at the start of the string). -/
def tokenScan (pat : Str) : Option Nat → Str → Bool
  | _, [] => false
  | prev, c :: cs =>
    ((match prev with
      | none => true
      | some p => !isWordChar p) && tokenAt pat (c :: cs))
      || tokenScan pat (some c) cs

/-- `re.search(r"\b" + pat + r"\b", s)` for a pattern made of word
characters. -/
def hasBoundedToken (pat s : Str) : Bool := tokenScan pat none s

/-- The alternatives of `\b(196[0-8]|197[0-9])\b`: every 4-digit year in
1960–1979 except 1969. -/
def otherYearStrs : List Str :=
  [str "1960", str "1961", str "1962", str "1963", str "1964",
   str "1965", str "1966", str "1967", str "1968",
   str "1970", str "1971", str "1972", str "1973", str "1974",
   str "1975", str "1976", str "1977", str "1978", str "1979"]

/-- `re.findall(r"\b(196[0-8]|197[0-9])\b", s)` is non-empty. -/
def hasOtherYear (s : Str) : Bool :=
  otherYearStrs.any (fun y => hasBoundedToken y s)

/-- `is_1969_camaro` from the source.  Note: the `1969` checks are plain
substring tests (`"1969" in t` / `"1969" not in text`), only `69` and the
other-year alternatives carry `\b` boundaries. -/
def is_1969_camaro (text : Str) : Bool :=
  let t := lowerStr text
  let has_camaro := containsSub (str "camaro") t
  let has_1969 := containsSub (str "1969") t || hasBoundedToken (str "69") t
  if hasOtherYear text && !containsSub (str "1969") text then false
  else has_camaro && has_1969

/-! ## Price extraction (`extract_price`) -/

/-- A `[\d,]` character. -/
def isGrpChar (c : Nat) : Bool := (48 ≤ c && c ≤ 57) || c == 44

/-- If `pat` occurs at the head of `s` followed by at least one `[\d,]`
character, the greedy `([\d,]+)` group; otherwise none. -/
def grpAfter (pat : Str) (s : Str) : Option Str :=
  if beginsWith pat s then
    let g := (s.drop pat.length).takeWhile isGrpChar
    if g.isEmpty then none else some g
  else none

/-- `re.search(pat + r"([\d,]+)", s)`: the group at the leftmost position
where the whole pattern matches. -/
def reSearchGrp (pat : Str) : Str → Option Str
  | [] => none
  | c :: cs => (grpAfter pat (c :: cs)).orElse fun _ => reSearchGrp pat cs

/-- Python `int(...)` after `.replace(",", "")`: none models the
`ValueError` raised on an empty digit string. -/
def pyInt (g : Str) : Option Nat :=
  let d := g.filter fun c => !(c == 44)
  if d.isEmpty then none
  else some (d.foldl (fun n c => n * 10 + (c - 48)) 0)

/-- `extract_price` from the source: try `US \$([\d,]+)` anywhere in the
text, then `\$([\d,]+)`, then `C\$([\d,]+)`; on a match yield
`("$" + group, int(group without commas))`, else `("", 0)`.  The outer
`Option` is the run outcome (`none` models an uncaught `ValueError`). -/
def extract_price (text : Str) : Option (Str × Nat) :=
  match ((reSearchGrp (str "US $") text).orElse fun _ =>
          (reSearchGrp (str "$") text).orElse fun _ =>
            reSearchGrp (str "C$") text) with
  | some g => (pyInt g).map fun n => (36 :: g, n)
  | none => some ([], 0)

/-! ## The aggregation / dedup / merge / sort / truncate engine

This models the body of `main` between loading state and persisting it:
the per-record dicts produced by the scrapers become a `Listing` record,
and the mutable `new_listings` / `merged` / `seen_title_ids` of the dedup
loop become a fold state. -/

/-- One listing dict, with the fields the scrapers populate. -/
structure Listing where
  id : Str
  source : Str
  title : Str
  price : Str
  price_num : Nat
  url : Str
  image : Str
  location : Str
  is_auction : Bool
  listed_at : Str
  fetched_at : Str
  is_new : Bool
deriving Repr, DecidableEq

/-- Python `x in someSet` for a list-modelled set of strings. -/
def smem (x : Str) (s : List Str) : Bool := s.any fun y => x == y

/-- Is some record with this id present (`l["id"] in merged`)? -/
def hasId (i : Str) (ls : List Listing) : Bool := ls.any fun x => x.id == i

/-- The title fingerprint of a record. -/
def tidOf (l : Listing) : Str := title_uid l.title l.source

/-- State of the dedup loop: `new_listings`, `merged` (a dict keyed by id,
kept in insertion order), `seen_title_ids`. -/
structure DState where
  newListings : List Listing
  merged : List Listing
  seenTids : List Str
deriving Repr, DecidableEq

/-- One iteration of the dedup loop in `main`. -/
def dedupStep (seen_ids : List Str) (st : DState) (l : Listing) : DState :=
  let tid := tidOf l
  if hasId l.id st.merged || smem tid st.seenTids then st
  else
    let isNew := !smem l.id seen_ids
    let l' := { l with is_new := isNew }
    { newListings := if isNew then st.newListings ++ [l'] else st.newListings
      merged := st.merged ++ [l']
      seenTids := st.seenTids ++ [tid] }

/-- The dedup loop over all fetched records. -/
def dedupFetched (seen_ids : List Str) (all_fetched : List Listing) : DState :=
  all_fetched.foldl (dedupStep seen_ids) ⟨[], [], []⟩

/-- Python dict insertion `d[k] = v`: replace in place if the key exists,
else append. -/
def dictInsert (d : List Listing) (l : Listing) : List Listing :=
  if hasId l.id d then d.map fun x => if x.id == l.id then l else x
  else d ++ [l]

/-- `{l["id"]: l for l in load_existing()}`. -/
def buildDict (ls : List Listing) : List Listing := ls.foldl dictInsert []

/-- One iteration of the carry-forward loop: a persisted record whose id
was not produced this run is appended with `is_new` forced to false. -/
def carryStep (merged : List Listing) (l : Listing) : List Listing :=
  if hasId l.id merged then merged else merged ++ [{ l with is_new := false }]

/-- The carry-forward loop over the persisted catalog. -/
def carryForward (merged existing : List Listing) : List Listing :=
  existing.foldl carryStep merged

/-- Lexicographic comparison of strings by code point
(Python `<=` on str). -/
def strLeB : Str → Str → Bool
  | [], _ => true
  | _ :: _, [] => false
  | a :: as, b :: bs => a < b || (a == b && strLeB as bs)

/-- The sort key tuple `(not x["is_new"], x["fetched_at"])`, compared
lexicographically; Python's stable ascending sort with this key puts new
records first and orders ties by `fetched_at` ascending. -/
def keyLe (x y : Listing) : Prop :=
  (x.is_new = true ∧ y.is_new = false) ∨
    (x.is_new = y.is_new ∧ strLeB x.fetched_at y.fetched_at = true)

instance : DecidableRel keyLe := fun x y => by unfold keyLe; infer_instance

/-- `sorted(merged.values(), key=...)`: a stable ascending sort. -/
def sortListings (ls : List Listing) : List Listing := List.insertionSort keyLe ls

/-- The retention capacity (`[:1000]` in `main`). -/
def CAP : Nat := 1000

/-- `seen_ids.update(l["id"] for l in all_fetched)`. -/
def updateSeen (seen : List Str) (fetched : List Listing) : List Str :=
  fetched.foldl (fun s l => if smem l.id s then s else s ++ [l.id]) seen

/-- The merged dict after dedup and carry-forward. -/
def mergedAll (seen_ids : List Str) (existingRaw fetched : List Listing) :
    List Listing :=
  carryForward (dedupFetched seen_ids fetched).merged (buildDict existingRaw)

/-- Result of one engine run. -/
structure EngineResult where
  final : List Listing
  newListings : List Listing
  newCount : Nat
  savedSeen : List Str
deriving Repr, DecidableEq

/-- The engine: dedup the fetched records against the pre-run ledger,
carry forward persisted records, sort new-first, truncate to `CAP`, and
extend the ledger with every fetched id. -/
def runEngine (seen_ids : List Str) (existingRaw fetched : List Listing) :
    EngineResult :=
  let st := dedupFetched seen_ids fetched
  let final := (sortListings (mergedAll seen_ids existingRaw fetched)).take CAP
  { final := final
    newListings := st.newListings
    newCount := st.newListings.length
    savedSeen := updateSeen seen_ids fetched }

/-- `l` with its `is_new` flag cleared. -/
def clearNew (l : Listing) : Listing := { l with is_new := false }

/-- Bool-valued `List.Pairwise`, used to state ordering and distinctness
properties so they evaluate on concrete runs. -/
def pairwiseB (p : Listing → Listing → Bool) : List Listing → Bool
  | [] => true
  | a :: as => as.all (p a) && pairwiseB p as

/-- The records appended by the carry-forward loop (so that
`carryForward merged existing = merged ++ carriedList merged existing`). -/
def carriedList (merged : List Listing) : List Listing → List Listing
  | [] => []
  | l :: ls =>
    if hasId l.id merged then carriedList merged ls
    else clearNew l :: carriedList (merged ++ [clearNew l]) ls

/-- Membership of a record in a list. -/
def lmem (l : Listing) (ls : List Listing) : Bool := ls.any fun x => decide (x = l)

/-! ## Spec-side formulations used by individual claims -/

/-- The claim's reading of a regex search: the group at the first (leftmost)
suffix of the text where `pat` followed by `([\d,]+)` matches. -/
def specSearchGrp (pat text : Str) : Option Str :=
  (text.tails.find? fun s => (grpAfter pat s).isSome).bind (grpAfter pat)

/-- Price extraction as the amended claim C7 words it: the leftmost
`US $`-prefixed digit group if one occurs anywhere, else the leftmost
`$`-prefixed one, else the leftmost `C$`-prefixed one. -/
def spec_extract_price (text : Str) : Option (Str × Nat) :=
  match (specSearchGrp (str "US $") text).orElse fun _ =>
      (specSearchGrp (str "$") text).orElse fun _ =>
        specSearchGrp (str "C$") text with
  | some g => (pyInt g).map fun n => (36 :: g, n)
  | none => some ([], 0)

/-- The group of the first currency-prefixed digit group *by position in
the text*, whichever of the three prefixes matches there — claim C7's
stated selection rule. -/
def firstGrp : Str → Option Str
  | [] => none
  | c :: cs =>
    ((grpAfter (str "US $") (c :: cs)).orElse fun _ =>
      (grpAfter (str "$") (c :: cs)).orElse fun _ =>
        grpAfter (str "C$") (c :: cs)).orElse fun _ => firstGrp cs

/-! ## Model of the tail of `main`: persistence then notification

`main` writes the catalog file and the seen ledger, and only then calls
`send_email(new_listings)` (guarded by `if new_listings:`); `send_email`
returns immediately when credentials are absent, and there is no
`try`/`except` around the call, so an SMTP failure propagates out of
`main`.  File writes are modelled as fields of a state record; whether
credentials are present and whether SMTP delivery raises are modelled as
Booleans. -/

/-- What `main` persists before notification: `docs/listings.json`
(catalog plus metadata) and `docs/seen_ids.json`. -/
structure PersistedState where
  catalog : List Listing
  total : Nat
  newCount : Nat
  ledger : List Str
deriving Repr, DecidableEq

inductive RunOutcome where
  | ok : RunOutcome
  | raised : RunOutcome
deriving Repr, DecidableEq

/-- The end of `main`: persist, then attempt notification. -/
def runMain (seen_ids : List Str) (existingRaw fetched : List Listing)
    (emailCreds emailRaises : Bool) : PersistedState × RunOutcome :=
  let r := runEngine seen_ids existingRaw fetched
  let persisted : PersistedState :=
    { catalog := r.final, total := r.final.length,
      newCount := r.newCount, ledger := r.savedSeen }
  if r.newListings.isEmpty then (persisted, RunOutcome.ok)
  else if !emailCreds then (persisted, RunOutcome.ok)
  else if emailRaises then (persisted, RunOutcome.raised)
  else (persisted, RunOutcome.ok)

/-- A listing record with the fields that matter to the engine
(deduplication keys, title, source, fetch time, freshness flag); the
remaining fields are empty, as the engine never reads them.  Used to build
concrete runs for counterexamples and witnesses. -/
def mkListing (i src t f : String) (isNew : Bool) : Listing :=
  { id := str i, source := str src, title := str t, price := [], price_num := 0,
    url := [], image := [], location := [], is_auction := false,
    listed_at := [], fetched_at := str f, is_new := isNew }

/-! ## Generic helper lemmas -/

theorem smem_iff {x : Str} {s : List Str} : smem x s = true ↔ x ∈ s := by
  unfold smem
  rw [List.any_eq_true]
  constructor
  · rintro ⟨y, hy, e⟩
    rw [beq_iff_eq] at e
    exact e ▸ hy
  · intro h
    exact ⟨x, h, beq_self_eq_true x⟩

theorem hasId_iff {i : Str} {ls : List Listing} :
    hasId i ls = true ↔ ∃ x ∈ ls, x.id = i := by
  simp [hasId, List.any_eq_true]

theorem pairwiseB_iff {p : Listing → Listing → Bool} :
    ∀ {l : List Listing},
      pairwiseB p l = true ↔ List.Pairwise (fun a b => p a b = true) l
  | [] => by simp [pairwiseB]
  | a :: as => by
    simp [pairwiseB, List.all_eq_true, pairwiseB_iff (l := as),
      List.pairwise_cons]

theorem strLeB_total : ∀ a b : Str, strLeB a b = true ∨ strLeB b a = true
  | [], _ => Or.inl rfl
  | _ :: _, [] => Or.inr rfl
  | a :: as, b :: bs => by
    rcases Nat.lt_trichotomy a b with h | h | h
    · left; simp [strLeB, h]
    · subst h
      rcases strLeB_total as bs with ih | ih
      · left; simp [strLeB, ih]
      · right; simp [strLeB, ih]
    · right; simp [strLeB, h]

theorem strLeB_trans :
    ∀ a b c : Str, strLeB a b = true → strLeB b c = true → strLeB a c = true
  | [], _, _, _, _ => rfl
  | _ :: _, [], _, h, _ => by simp [strLeB] at h
  | _ :: _, _ :: _, [], _, h => by simp [strLeB] at h
  | a :: as, b :: bs, c :: cs, h1, h2 => by
    simp only [strLeB, Bool.or_eq_true, decide_eq_true_eq, Bool.and_eq_true,
      beq_iff_eq] at h1 h2 ⊢
    rcases h1 with h1 | ⟨e1, r1⟩ <;> rcases h2 with h2 | ⟨e2, r2⟩
    · exact Or.inl (h1.trans h2)
    · exact Or.inl (e2 ▸ h1)
    · exact Or.inl (e1 ▸ h2)
    · exact Or.inr ⟨e1.trans e2, strLeB_trans as bs cs r1 r2⟩

instance : IsTotal Listing keyLe := by
  constructor
  intro a b
  unfold keyLe
  cases ha : a.is_new <;> cases hb : b.is_new <;>
    rcases strLeB_total a.fetched_at b.fetched_at with h | h <;>
      simp [ha, hb, h]

instance : IsTrans Listing keyLe := by
  constructor
  intro a b c hab hbc
  unfold keyLe at hab hbc ⊢
  rcases hab with ⟨ha, hb⟩ | ⟨e1, r1⟩ <;> rcases hbc with ⟨hb', hc⟩ | ⟨e2, r2⟩
  · rw [hb] at hb'
    exact absurd hb' (by simp)
  · exact Or.inl ⟨ha, by rw [← e2]; exact hb⟩
  · exact Or.inl ⟨by rw [e1]; exact hb', hc⟩
  · exact Or.inr ⟨e1.trans e2, strLeB_trans _ _ _ r1 r2⟩

theorem sorted_sortListings (ls : List Listing) :
    List.Sorted keyLe (sortListings ls) :=
  List.sorted_insertionSort keyLe ls

theorem perm_sortListings (ls : List Listing) : List.Perm (sortListings ls) ls :=
  List.perm_insertionSort keyLe ls

/-! ## Invariants of the dedup loop -/

theorem tidOf_mk (l : Listing) (b : Bool) : tidOf { l with is_new := b } = tidOf l := rfl

theorem id_mk (l : Listing) (b : Bool) : ({ l with is_new := b } : Listing).id = l.id := rfl

theorem clearNew_id (l : Listing) : (clearNew l).id = l.id := rfl

theorem foldl_inv {α β : Type} {P : β → Prop} (f : β → α → β)
    (h : ∀ st a, P st → P (f st a)) :
    ∀ (l : List α) (st : β), P st → P (l.foldl f st)
  | [], _, hp => hp
  | a :: as, st, hp => foldl_inv f h as (f st a) (h st a hp)

/-- Preservation of the dedup-loop invariant by one iteration. -/
theorem dedupStep_inv (seen : List Str) (st : DState) (l : Listing)
    (h : st.seenTids = st.merged.map tidOf ∧ (st.merged.map tidOf).Nodup ∧
      (st.merged.map Listing.id).Nodup ∧
      (∀ x ∈ st.merged, x.is_new = !(smem x.id seen)) ∧
      st.newListings = st.merged.filter fun x => x.is_new) :
    (dedupStep seen st l).seenTids = (dedupStep seen st l).merged.map tidOf ∧
      ((dedupStep seen st l).merged.map tidOf).Nodup ∧
      ((dedupStep seen st l).merged.map Listing.id).Nodup ∧
      (∀ x ∈ (dedupStep seen st l).merged, x.is_new = !(smem x.id seen)) ∧
      (dedupStep seen st l).newListings =
        (dedupStep seen st l).merged.filter fun x => x.is_new := by
  obtain ⟨h1, h2, h3, h4, h5⟩ := h
  by_cases hg : (hasId l.id st.merged || smem (tidOf l) st.seenTids) = true
  · have he : dedupStep seen st l = st := by
      simp only [dedupStep]
      rw [if_pos hg]
    rw [he]
    exact ⟨h1, h2, h3, h4, h5⟩
  · have hng := hg
    simp only [Bool.or_eq_true, not_or, Bool.not_eq_true] at hng
    obtain ⟨hid, htid⟩ := hng
    have he : dedupStep seen st l =
        { newListings :=
            if !(smem l.id seen) then
              st.newListings ++ [{ l with is_new := !(smem l.id seen) }]
            else st.newListings
          merged := st.merged ++ [{ l with is_new := !(smem l.id seen) }]
          seenTids := st.seenTids ++ [tidOf l] } := by
      simp only [dedupStep]
      rw [if_neg hg]
    rw [he]
    refine ⟨?_, ?_, ?_, ?_, ?_⟩
    · simp only [List.map_append, List.map_cons, List.map_nil, tidOf_mk, h1]
    · rw [List.map_append, List.map_cons, List.map_nil, tidOf_mk]
      rw [List.nodup_append]
      refine ⟨h2, List.nodup_singleton _, ?_⟩
      intro t ht hmem
      rcases List.mem_singleton.mp hmem with rfl
      rw [h1] at htid
      exact absurd (smem_iff.mpr ht) (by simp [htid])
    · rw [List.map_append, List.map_cons, List.map_nil, id_mk]
      rw [List.nodup_append]
      refine ⟨h3, List.nodup_singleton _, ?_⟩
      intro t ht hmem
      rcases List.mem_singleton.mp hmem with rfl
      rcases List.mem_map.mp ht with ⟨x, hx, hxid⟩
      have : hasId l.id st.merged = true := hasId_iff.mpr ⟨x, hx, hxid⟩
      rw [this] at hid
      exact absurd hid (by simp)
    · intro x hx
      rcases List.mem_append.mp hx with hx | hx
      · exact h4 x hx
      · rcases List.mem_singleton.mp hx with rfl
        rw [id_mk]
    · rw [List.filter_append, h5]
      by_cases hn : smem l.id seen = true
      · simp [hn, List.filter]
      · simp only [Bool.not_eq_true] at hn
        simp [hn, List.filter]

/-- The dedup-loop invariant at the end of the loop. -/
theorem dedupFetched_inv (seen : List Str) (fetched : List Listing) :
    (dedupFetched seen fetched).seenTids =
        (dedupFetched seen fetched).merged.map tidOf ∧
      ((dedupFetched seen fetched).merged.map tidOf).Nodup ∧
      ((dedupFetched seen fetched).merged.map Listing.id).Nodup ∧
      (∀ x ∈ (dedupFetched seen fetched).merged, x.is_new = !(smem x.id seen)) ∧
      (dedupFetched seen fetched).newListings =
        (dedupFetched seen fetched).merged.filter fun x => x.is_new :=
  foldl_inv (dedupStep seen) (fun st l h => dedupStep_inv seen st l h) fetched
    ⟨[], [], []⟩
    ⟨rfl, ⟨List.nodup_nil, ⟨List.nodup_nil,
      ⟨fun x hx => absurd hx (List.not_mem_nil x), rfl⟩⟩⟩⟩

/-- Every surviving record's id comes from some fetched record. -/
theorem dedup_merged_ids (seen : List Str) :
    ∀ (fetched : List Listing) (st : DState),
      ∀ x ∈ (fetched.foldl (dedupStep seen) st).merged,
        x ∈ st.merged ∨ ∃ l ∈ fetched, x.id = l.id
  | [], _, _, hx => Or.inl hx
  | a :: as, st, x, hx => by
    rcases dedup_merged_ids seen as (dedupStep seen st a) x hx with h | ⟨l, hl, e⟩
    · by_cases hg : (hasId a.id st.merged || smem (tidOf a) st.seenTids) = true
      · have he : dedupStep seen st a = st := by
          simp only [dedupStep]; rw [if_pos hg]
        rw [he] at h
        exact Or.inl h
      · have he : (dedupStep seen st a).merged =
            st.merged ++ [{ a with is_new := !(smem a.id seen) }] := by
          simp only [dedupStep]; rw [if_neg hg]
        rw [he] at h
        rcases List.mem_append.mp h with h | h
        · exact Or.inl h
        · rcases List.mem_singleton.mp h with rfl
          exact Or.inr ⟨a, List.mem_cons_self a as, rfl⟩
    · exact Or.inr ⟨l, List.mem_cons_of_mem a hl, e⟩

theorem bfalse {b : Bool} (h : ¬b = true) : b = false := by
  cases b
  · rfl
  · exact absurd rfl h

theorem hasId_append (i : Str) (m1 m2 : List Listing) :
    hasId i (m1 ++ m2) = (hasId i m1 || hasId i m2) := by
  unfold hasId
  exact List.any_append

theorem hasId_singleton (i : Str) (l : Listing) : hasId i [l] = (l.id == i) := by
  simp [hasId]

theorem hasId_map_clearNew (i : Str) (m : List Listing) :
    hasId i (m.map clearNew) = hasId i m := by
  unfold hasId
  rw [List.any_map]
  rfl

/-! ## Carry-forward and dict lemmas -/

theorem carriedList_cons (merged : List Listing) (l : Listing) (ls : List Listing) :
    carriedList merged (l :: ls) =
      if hasId l.id merged then carriedList merged ls
      else clearNew l :: carriedList (merged ++ [clearNew l]) ls := rfl

theorem carryForward_eq : ∀ (existing merged : List Listing),
    carryForward merged existing = merged ++ carriedList merged existing
  | [], merged => by simp [carryForward, carriedList]
  | l :: ls, merged => by
    have hstep : carryForward merged (l :: ls) = carryForward (carryStep merged l) ls := rfl
    rw [hstep, carriedList_cons]
    by_cases h : hasId l.id merged = true
    · rw [if_pos h]
      have hc : carryStep merged l = merged := by simp [carryStep, h]
      rw [hc, carryForward_eq ls merged]
    · rw [if_neg h]
      have hc : carryStep merged l = merged ++ [clearNew l] := by
        unfold carryStep
        rw [if_neg h]
        rfl
      rw [hc, carryForward_eq ls (merged ++ [clearNew l])]
      simp

theorem carriedList_is_new_false : ∀ (existing merged : List Listing),
    ∀ x ∈ carriedList merged existing, x.is_new = false
  | [], _, x, hx => absurd hx (List.not_mem_nil x)
  | l :: ls, merged, x, hx => by
    unfold carriedList at hx
    by_cases h : hasId l.id merged = true
    · rw [if_pos h] at hx
      exact carriedList_is_new_false ls merged x hx
    · rw [if_neg h] at hx
      rcases List.mem_cons.mp hx with rfl | hx'
      · rfl
      · exact carriedList_is_new_false ls (merged ++ [clearNew l]) x hx'

theorem carriedList_eq_filter : ∀ (existing merged : List Listing),
    (existing.map Listing.id).Nodup →
    carriedList merged existing =
      (existing.filter fun l => !(hasId l.id merged)).map clearNew
  | [], _, _ => rfl
  | l :: ls, merged, hnd => by
    rw [List.map_cons, List.nodup_cons] at hnd
    obtain ⟨hhead, htail⟩ := hnd
    unfold carriedList
    by_cases h : hasId l.id merged = true
    · rw [if_pos h, carriedList_eq_filter ls merged htail,
        List.filter_cons, if_neg (by simp [h])]
    · rw [if_neg h, carriedList_eq_filter ls (merged ++ [clearNew l]) htail,
        List.filter_cons, if_pos (by simp [bfalse h])]
      rw [List.map_cons]
      congr 1
      apply congrArg
      apply List.filter_congr
      intro x hx
      have hne : (l.id == x.id) = false := by
        rw [beq_eq_false_iff_ne]
        intro e
        exact hhead (e ▸ List.mem_map_of_mem Listing.id hx)
      rw [hasId_append, hasId_singleton, clearNew_id, hne, Bool.or_false]

theorem dictInsert_ids_nodup (d : List Listing) (l : Listing)
    (h : (d.map Listing.id).Nodup) : ((dictInsert d l).map Listing.id).Nodup := by
  unfold dictInsert
  by_cases hd : hasId l.id d = true
  · rw [if_pos hd]
    have he : (d.map fun x => if x.id == l.id then l else x).map Listing.id =
        d.map Listing.id := by
      rw [List.map_map]
      apply List.map_congr_left
      intro a _
      by_cases e : (a.id == l.id) = true
      · simp only [Function.comp, e, if_pos]
        exact (beq_iff_eq.mp e).symm
      · simp only [Function.comp, e, if_neg, Bool.false_eq_true, not_false_iff]
    rw [he]
    exact h
  · rw [if_neg hd, List.map_append, List.nodup_append]
    refine ⟨h, List.nodup_singleton _, ?_⟩
    intro t ht hmem
    rcases List.mem_singleton.mp hmem with rfl
    rcases List.mem_map.mp ht with ⟨x, hx, hxid⟩
    exact absurd (hasId_iff.mpr ⟨x, hx, hxid⟩) hd

theorem buildDict_ids_nodup (ls : List Listing) :
    ((buildDict ls).map Listing.id).Nodup :=
  foldl_inv dictInsert (fun d l h => dictInsert_ids_nodup d l h) ls [] List.nodup_nil

theorem foldl_dictInsert_fresh : ∀ (ls d : List Listing),
    (∀ x ∈ ls, hasId x.id d = false) → (ls.map Listing.id).Nodup →
    ls.foldl dictInsert d = d ++ ls
  | [], d, _, _ => by simp
  | l :: ls, d, hout, hnd => by
    rw [List.map_cons, List.nodup_cons] at hnd
    obtain ⟨hhead, htail⟩ := hnd
    have h1 : dictInsert d l = d ++ [l] := by
      unfold dictInsert
      rw [if_neg (by simp [hout l (List.mem_cons_self l ls)])]
    show ls.foldl dictInsert (dictInsert d l) = d ++ l :: ls
    rw [h1]
    refine (foldl_dictInsert_fresh ls (d ++ [l]) ?_ htail).trans (by simp)
    intro x hx
    have hne : (l.id == x.id) = false := by
      rw [beq_eq_false_iff_ne]
      intro e
      exact hhead (e ▸ List.mem_map_of_mem Listing.id hx)
    rw [hasId_append, hasId_singleton, hne, hout x (List.mem_cons_of_mem l hx),
      Bool.or_false]

theorem buildDict_of_nodup (ls : List Listing)
    (h : (ls.map Listing.id).Nodup) : buildDict ls = ls := by
  unfold buildDict
  rw [foldl_dictInsert_fresh ls [] (fun x _ => rfl) h]
  simp

/-! ## Ordering helpers for the sorted catalog -/

theorem sorted_new_in_takeWhile :
    ∀ {l : List Listing}, List.Sorted keyLe l →
      ∀ x ∈ l, x.is_new = true → x ∈ l.takeWhile fun y => y.is_new
  | [], _, x, hx, _ => absurd hx (List.not_mem_nil x)
  | a :: as, hs, x, hx, hnew => by
    rw [List.sorted_cons] at hs
    obtain ⟨hrel, hs'⟩ := hs
    by_cases hna : a.is_new = true
    · rw [List.takeWhile_cons_of_pos hna]
      rcases List.mem_cons.mp hx with rfl | hx'
      · exact List.mem_cons_self _ _
      · exact List.mem_cons_of_mem _ (sorted_new_in_takeWhile hs' x hx' hnew)
    · rcases List.mem_cons.mp hx with rfl | hx'
      · exact absurd hnew hna
      · have hk := hrel x hx'
        unfold keyLe at hk
        rcases hk with ⟨h1, _⟩ | ⟨h1, _⟩
        · exact absurd h1 hna
        · exact absurd (h1.trans hnew) hna

theorem takeWhile_length_le_countP (p : Listing → Bool) :
    ∀ (l : List Listing), (l.takeWhile p).length ≤ l.countP p
  | [] => Nat.le_refl 0
  | a :: as => by
    by_cases h : p a = true
    · rw [List.takeWhile_cons_of_pos h, List.countP_cons_of_pos _ _ h]
      exact Nat.succ_le_succ (takeWhile_length_le_countP p as)
    · rw [List.takeWhile_cons_of_neg (by simp [bfalse h])]
      exact Nat.zero_le _

theorem mem_take_of_mem_takeWhile {p : Listing → Bool} :
    ∀ {l : List Listing} {x : Listing} {n : Nat},
      x ∈ l.takeWhile p → (l.takeWhile p).length ≤ n → x ∈ l.take n
  | [], x, n, hx, _ => absurd hx (List.not_mem_nil x)
  | a :: as, x, n, hx, hn => by
    by_cases h : p a = true
    · rw [List.takeWhile_cons_of_pos h] at hx hn
      match n, hn with
      | m + 1, hn =>
        rw [List.take_succ_cons]
        rcases List.mem_cons.mp hx with rfl | hx'
        · exact List.mem_cons_self _ _
        · exact List.mem_cons_of_mem _
            (mem_take_of_mem_takeWhile hx' (Nat.le_of_succ_le_succ hn))
    · rw [List.takeWhile_cons_of_neg (by simp [bfalse h])] at hx
      exact absurd hx (List.not_mem_nil x)

/-! ## The second run of the engine (for claim C3) -/

theorem dedup_second_run (seen seen' : List Str) :
    ∀ (fetched : List Listing) (st1 st2 : DState),
      (∀ l ∈ fetched, smem l.id seen' = true) →
      st2.merged = st1.merged.map clearNew →
      st2.seenTids = st1.seenTids →
      st2.newListings = [] →
      (fetched.foldl (dedupStep seen') st2).merged =
          ((fetched.foldl (dedupStep seen) st1).merged).map clearNew ∧
        (fetched.foldl (dedupStep seen') st2).newListings = []
  | [], _, _, _, hm, _, hn => ⟨hm, hn⟩
  | a :: as, st1, st2, hall, hm, ht, hn => by
    have ha := hall a (List.mem_cons_self a as)
    have hgeq : (hasId a.id st2.merged || smem (tidOf a) st2.seenTids) =
        (hasId a.id st1.merged || smem (tidOf a) st1.seenTids) := by
      rw [hm, hasId_map_clearNew, ht]
    simp only [List.foldl_cons]
    by_cases hg : (hasId a.id st1.merged || smem (tidOf a) st1.seenTids) = true
    · have he2 : dedupStep seen' st2 a = st2 := by
        simp only [dedupStep]
        rw [if_pos (hgeq.trans hg)]
      have he1 : dedupStep seen st1 a = st1 := by
        simp only [dedupStep]
        rw [if_pos hg]
      rw [he2, he1]
      exact dedup_second_run seen seen' as st1 st2
        (fun l hl => hall l (List.mem_cons_of_mem a hl)) hm ht hn
    · have he2 : dedupStep seen' st2 a =
          { newListings := st2.newListings
            merged := st2.merged ++ [{ a with is_new := false }]
            seenTids := st2.seenTids ++ [tidOf a] } := by
        simp only [dedupStep]
        rw [if_neg (fun hc => hg (hgeq ▸ hc))]
        rw [ha]
        rfl
      have he1 : dedupStep seen st1 a =
          { newListings :=
              if !(smem a.id seen) then
                st1.newListings ++ [{ a with is_new := !(smem a.id seen) }]
              else st1.newListings
            merged := st1.merged ++ [{ a with is_new := !(smem a.id seen) }]
            seenTids := st1.seenTids ++ [tidOf a] } := by
        simp only [dedupStep]
        rw [if_neg hg]
      rw [he2, he1]
      refine dedup_second_run seen seen' as _ _
        (fun l hl => hall l (List.mem_cons_of_mem a hl)) ?_ ?_ hn
      · show st2.merged ++ [{ a with is_new := false }] =
          (st1.merged ++ [{ a with is_new := !(smem a.id seen) }]).map clearNew
        rw [List.map_append, hm]
        rfl
      · show st2.seenTids ++ [tidOf a] = st1.seenTids ++ [tidOf a]
        rw [ht]

/-! ## Projections of the engine result -/

theorem runEngine_final (seen : List Str) (ex f : List Listing) :
    (runEngine seen ex f).final = (sortListings (mergedAll seen ex f)).take CAP := rfl

theorem runEngine_newListings (seen : List Str) (ex f : List Listing) :
    (runEngine seen ex f).newListings = (dedupFetched seen f).newListings := rfl

theorem runEngine_newCount (seen : List Str) (ex f : List Listing) :
    (runEngine seen ex f).newCount = (dedupFetched seen f).newListings.length := rfl

theorem runEngine_savedSeen (seen : List Str) (ex f : List Listing) :
    (runEngine seen ex f).savedSeen = updateSeen seen f := rfl

theorem lmem_iff {l : Listing} {ls : List Listing} : lmem l ls = true ↔ l ∈ ls := by
  unfold lmem
  rw [List.any_eq_true]
  constructor
  · rintro ⟨y, hy, e⟩
    rw [decide_eq_true_eq] at e
    exact e ▸ hy
  · intro h
    exact ⟨l, h, by simp⟩

theorem updateSeen_mem : ∀ (fetched : List Listing) (seen : List Str) (x : Str),
    x ∈ updateSeen seen fetched ↔ (x ∈ seen ∨ ∃ l ∈ fetched, l.id = x)
  | [], seen, x => by simp [updateSeen]
  | a :: as, seen, x => by
    show x ∈ updateSeen (if smem a.id seen then seen else seen ++ [a.id]) as ↔ _
    by_cases h : smem a.id seen = true
    · rw [if_pos h, updateSeen_mem as seen x]
      have hax : a.id ∈ seen := smem_iff.mp h
      constructor
      · rintro (hx | ⟨l, hl, e⟩)
        · exact Or.inl hx
        · exact Or.inr ⟨l, List.mem_cons_of_mem a hl, e⟩
      · rintro (hx | ⟨l, hl, e⟩)
        · exact Or.inl hx
        · rcases List.mem_cons.mp hl with rfl | hl'
          · exact Or.inl (e ▸ hax)
          · exact Or.inr ⟨l, hl', e⟩
    · rw [if_neg h, updateSeen_mem as (seen ++ [a.id]) x]
      constructor
      · rintro (hx | ⟨l, hl, e⟩)
        · rcases List.mem_append.mp hx with hx | hx
          · exact Or.inl hx
          · exact Or.inr ⟨a, List.mem_cons_self a as, (List.mem_singleton.mp hx).symm⟩
        · exact Or.inr ⟨l, List.mem_cons_of_mem a hl, e⟩
      · rintro (hx | ⟨l, hl, e⟩)
        · exact Or.inl (List.mem_append_left _ hx)
        · rcases List.mem_cons.mp hl with rfl | hl'
          · exact Or.inl (List.mem_append_right _ (List.mem_singleton.mpr e.symm))
          · exact Or.inr ⟨l, hl', e⟩

theorem carriedList_fresh : ∀ (ex m : List Listing),
    ∀ x ∈ carriedList m ex, hasId x.id m = false
  | [], _, x, hx => absurd hx (List.not_mem_nil x)
  | l :: ls, m, x, hx => by
    rw [carriedList_cons] at hx
    by_cases h : hasId l.id m = true
    · rw [if_pos h] at hx
      exact carriedList_fresh ls m x hx
    · rw [if_neg h] at hx
      rcases List.mem_cons.mp hx with rfl | hx'
      · exact bfalse h
      · have := carriedList_fresh ls (m ++ [clearNew l]) x hx'
        rw [hasId_append] at this
        exact (Bool.or_eq_false_iff.mp this).1

theorem carryStep_ids_nodup (m : List Listing) (l : Listing)
    (h : (m.map Listing.id).Nodup) : ((carryStep m l).map Listing.id).Nodup := by
  unfold carryStep
  by_cases hd : hasId l.id m = true
  · rw [if_pos hd]
    exact h
  · rw [if_neg hd, List.map_append, List.nodup_append]
    refine ⟨h, List.nodup_singleton _, ?_⟩
    intro t ht hmem
    rcases List.mem_singleton.mp hmem with rfl
    rcases List.mem_map.mp ht with ⟨x, hx, hxid⟩
    exact absurd (hasId_iff.mpr ⟨x, hx, hxid⟩) hd

theorem mergedAll_ids_nodup (seen : List Str) (ex fetched : List Listing) :
    ((mergedAll seen ex fetched).map Listing.id).Nodup :=
  foldl_inv carryStep (fun m l h => carryStep_ids_nodup m l h) (buildDict ex)
    (dedupFetched seen fetched).merged ((dedupFetched_inv seen fetched).2.2.1)

/-! ## Claim C4 -/

/-- C4: for every fetched record that survives deduplication, `is_new`
holds iff its identity was absent from the seen ledger as loaded before
the fetch (a record whose id is already in the ledger is never new,
whatever its other fields), and every persisted record carried forward
because its identity was not produced this run has `is_new` forced to
`false`. -/
theorem C4_is_new_semantics (seen : List Str) (fetched existingRaw : List Listing) :
    ((dedupFetched seen fetched).merged.all
        fun l => l.is_new == !(smem l.id seen)) = true ∧
      ((carriedList (dedupFetched seen fetched).merged (buildDict existingRaw)).all
        fun l => l.is_new == false) = true := by
  constructor
  · rw [List.all_eq_true]
    intro l hl
    rw [beq_iff_eq]
    exact (dedupFetched_inv seen fetched).2.2.2.1 l hl
  · rw [List.all_eq_true]
    intro l hl
    rw [beq_iff_eq]
    exact carriedList_is_new_false _ _ l hl

/-! ## Claim C10 -/

/-- C10: after a run, the saved ledger is exactly the loaded ledger union
the ids of all fetched (relevance-matched) records — including records
discarded by dedup — so the ledger never shrinks, and in any later run
whose starting ledger contains this run's saved ledger, a surviving record
with the id of any record fetched this run is never marked new. -/
theorem C10_ledger_monotone (seen : List Str) (existingRaw fetched : List Listing) :
    (∀ x : Str, x ∈ (runEngine seen existingRaw fetched).savedSeen ↔
        (x ∈ seen ∨ ∃ l ∈ fetched, l.id = x)) ∧
      (∀ x ∈ seen, x ∈ (runEngine seen existingRaw fetched).savedSeen) ∧
      (∀ (seen' : List Str) (fetched2 : List Listing),
        (∀ x ∈ (runEngine seen existingRaw fetched).savedSeen, x ∈ seen') →
        ∀ l ∈ fetched, ∀ m ∈ (dedupFetched seen' fetched2).merged,
          m.id = l.id → m.is_new = false) := by
  refine ⟨?_, ?_, ?_⟩
  · intro x
    rw [runEngine_savedSeen]
    exact updateSeen_mem fetched seen x
  · intro x hx
    rw [runEngine_savedSeen, updateSeen_mem]
    exact Or.inl hx
  · intro seen' fetched2 hsub l hl m hm hid
    have h1 : m.is_new = !(smem m.id seen') :=
      (dedupFetched_inv seen' fetched2).2.2.2.1 m hm
    have h2 : l.id ∈ (runEngine seen existingRaw fetched).savedSeen := by
      rw [runEngine_savedSeen, updateSeen_mem]
      exact Or.inr ⟨l, hl, rfl⟩
    have h3 : smem m.id seen' = true := smem_iff.mpr (hid ▸ hsub l.id h2)
    rw [h1, h3]
    rfl

/-- Witness for C10 at a concrete run: record `u2` is discarded by the
title-collision rule in run one (same normalized title and source as
`u1`), yet its id enters the ledger, and when it is fetched again in a
later run it is not marked new. -/
theorem C10_ledger_monotone_witness :
    ({ mkListing "u2" "s" "camaro ss" "1" true with is_new := false } : Listing).is_new
      = false :=
  (C10_ledger_monotone [] [] [mkListing "u1" "s" "camaro ss" "2" true,
      mkListing "u2" "s" "camaro ss" "1" true]).2.2
    (runEngine [] [] [mkListing "u1" "s" "camaro ss" "2" true,
      mkListing "u2" "s" "camaro ss" "1" true]).savedSeen
    [mkListing "u2" "s" "camaro ss" "1" true]
    (fun x hx => hx)
    (mkListing "u2" "s" "camaro ss" "1" true) (by decide)
    { mkListing "u2" "s" "camaro ss" "1" true with is_new := false } (by decide)
    (by decide)

/-! ## Claim C2 -/

/-- C2 counterexample: the claim asserts that no two kept records of the
final merged catalog share a `title_identity`.  With fetched record `u1`
and persisted record `u2` both titled "camaro" from source "s", the final
catalog keeps both (the carry-forward loop checks only ids, never title
fingerprints), and they share `title_uid("camaro", "s")`. -/
theorem C2_counterexample :
    (pairwiseB (fun x y => !(x.id == y.id))
        (runEngine [] [mkListing "u2" "s" "camaro" "1" true]
          [mkListing "u1" "s" "camaro" "2" true]).final &&
      pairwiseB (fun x y => !(tidOf x == tidOf y))
        (runEngine [] [mkListing "u2" "s" "camaro" "1" true]
          [mkListing "u1" "s" "camaro" "2" true]).final) = false := by
  decide

/-- C2 amended: in the final catalog all `id` values are pairwise
distinct, and among the records surviving this run's fetch deduplication
no two share a `title_identity`; a persisted record carried forward may,
however, share a `title_identity` with a fetched record (as the
counterexample shows). -/
theorem C2_identity_unique (seen : List Str) (existingRaw fetched : List Listing) :
    pairwiseB (fun x y => !(x.id == y.id))
        (runEngine seen existingRaw fetched).final = true ∧
      pairwiseB (fun x y => !(tidOf x == tidOf y))
        (dedupFetched seen fetched).merged = true := by
  constructor
  · rw [pairwiseB_iff]
    have h1 := mergedAll_ids_nodup seen existingRaw fetched
    have hperm := perm_sortListings (mergedAll seen existingRaw fetched)
    have h2 : ((sortListings (mergedAll seen existingRaw fetched)).map Listing.id).Nodup :=
      ((hperm.map Listing.id).symm).nodup h1
    have h3 : (((sortListings (mergedAll seen existingRaw fetched)).take CAP).map
        Listing.id).Nodup := by
      rw [List.map_take]
      exact ((List.map Listing.id _).take_sublist CAP).nodup h2
    rw [runEngine_final]
    have h4 := (List.pairwise_map.mp h3)
    refine h4.imp fun hne => ?_
    simp only [Bool.not_eq_true', beq_eq_false_iff_ne]
    exact hne
  · rw [pairwiseB_iff]
    have h1 := (dedupFetched_inv seen fetched).2.1
    have h2 := List.pairwise_map.mp h1
    refine h2.imp fun hne => ?_
    simp only [Bool.not_eq_true', beq_eq_false_iff_ne]
    exact hne

/-! ## Claim C6 -/

/-- C6 counterexample: the claim orders ties among equally-new records by
fetch recency, most recently fetched first.  Two new records fetched at
"2024" and "2025" end up oldest-first in the final catalog (the sort key
is `fetched_at` ascending), so the most-recent-first pairwise predicate
fails on the run's final catalog. -/
theorem C6_counterexample :
    pairwiseB
      (fun x y => (!y.is_new || x.is_new) &&
        (!(x.is_new == y.is_new) || strLeB y.fetched_at x.fetched_at))
      (runEngine [] [] [mkListing "a" "s" "ta" "2025" true,
        mkListing "b" "s" "tb" "2024" true]).final = false := by
  decide

/-- C6 amended: the final catalog is new-first — for records `x` before
`y`, if `y` is new then so is `x` — and among records with equal `is_new`
ties are ordered by `fetched_at` ascending (oldest fetch first, i.e. the
most recently fetched record last among its group). -/
theorem C6_new_first_ordering (seen : List Str) (existingRaw fetched : List Listing) :
    pairwiseB
      (fun x y => (!y.is_new || x.is_new) &&
        (!(x.is_new == y.is_new) || strLeB x.fetched_at y.fetched_at))
      (runEngine seen existingRaw fetched).final = true := by
  rw [pairwiseB_iff]
  have hs : List.Sorted keyLe (sortListings (mergedAll seen existingRaw fetched)) :=
    sorted_sortListings _
  have hp : List.Pairwise keyLe (runEngine seen existingRaw fetched).final := by
    rw [runEngine_final]
    exact List.Pairwise.sublist (List.take_sublist CAP _) hs
  refine hp.imp fun hk => ?_
  unfold keyLe at hk
  rcases hk with ⟨hx, hy⟩ | ⟨he, hle⟩
  · simp [hx, hy]
  · simp [he, hle]

/-! ## Claim C5 -/

/-- C5: the final catalog never exceeds the capacity (1000 in the code),
and whenever the number of records marked new this run is at most the
capacity, every record marked new appears in the final catalog — no new
record is dropped by truncation. -/
theorem C5_retention_bound (seen : List Str) (existingRaw fetched : List Listing) :
    (runEngine seen existingRaw fetched).final.length ≤ CAP ∧
      ((runEngine seen existingRaw fetched).newCount ≤ CAP →
        ((runEngine seen existingRaw fetched).newListings.all
          fun l => lmem l (runEngine seen existingRaw fetched).final) = true) := by
  constructor
  · rw [runEngine_final, List.length_take]
    exact Nat.min_le_left _ _
  · intro hcap
    rw [runEngine_newListings] at *
    rw [List.all_eq_true]
    intro l hl
    rw [lmem_iff, runEngine_final]
    obtain ⟨_, _, _, hinv4, hinv5⟩ := dedupFetched_inv seen fetched
    rw [hinv5] at hl
    have hmem := List.mem_filter.mp hl
    have hnew : l.is_new = true := hmem.2
    have hM : l ∈ mergedAll seen existingRaw fetched := by
      unfold mergedAll
      rw [carryForward_eq]
      exact List.mem_append_left _ hmem.1
    have hsortmem : l ∈ sortListings (mergedAll seen existingRaw fetched) :=
      (perm_sortListings _).mem_iff.mpr hM
    have htw : l ∈ (sortListings (mergedAll seen existingRaw fetched)).takeWhile
        fun y => y.is_new :=
      sorted_new_in_takeWhile (sorted_sortListings _) l hsortmem hnew
    have hcount : ((sortListings (mergedAll seen existingRaw fetched)).takeWhile
        fun y => y.is_new).length ≤ CAP := by
      refine le_trans (takeWhile_length_le_countP _ _) ?_
      rw [(perm_sortListings (mergedAll seen existingRaw fetched)).countP_eq]
      unfold mergedAll
      rw [carryForward_eq, List.countP_append]
      have hc0 : (carriedList (dedupFetched seen fetched).merged
          (buildDict existingRaw)).countP (fun y => y.is_new) = 0 := by
        rw [List.countP_eq_zero]
        intro a ha
        rw [carriedList_is_new_false _ _ a ha]
        simp
      rw [hc0, Nat.add_zero]
      have hlen : (dedupFetched seen fetched).merged.countP (fun y => y.is_new) =
          (dedupFetched seen fetched).newListings.length := by
        rw [hinv5, List.countP_eq_length_filter]
      rw [hlen]
      rw [runEngine_newCount] at hcap
      exact hcap
    exact mem_take_of_mem_takeWhile htw hcount

/-- Witness for C5 at a concrete run with one new record. -/
theorem C5_retention_bound_witness :
    (runEngine [] [] [mkListing "a" "s" "t" "1" true]).newCount ≤ CAP ∧
      ((runEngine [] [] [mkListing "a" "s" "t" "1" true]).newListings.all
        fun l => lmem l (runEngine [] [] [mkListing "a" "s" "t" "1" true]).final) = true :=
  ⟨by decide, (C5_retention_bound [] [] [mkListing "a" "s" "t" "1" true]).2 (by decide)⟩

/-! ## Claim C3 -/

/-- C3 counterexample: running the engine a second time on the same input
batch, starting from the ledger and catalog produced by the first run,
does not reproduce the same final catalog.  First run: fetch `a`
(fetched_at "2") with persisted `b` (fetched_at "1") gives `[a (new), b]`;
second run re-fetches `a`, which is now in the ledger, so nothing is new
and the pure `fetched_at` sort yields `[b, a]` with `a`'s flag cleared. -/
theorem C3_counterexample :
    (runEngine
        (runEngine [] [mkListing "b" "s" "tb" "1" true]
          [mkListing "a" "s" "ta" "2" true]).savedSeen
        (runEngine [] [mkListing "b" "s" "tb" "1" true]
          [mkListing "a" "s" "ta" "2" true]).final
        [mkListing "a" "s" "ta" "2" true]).final ≠
      (runEngine [] [mkListing "b" "s" "tb" "1" true]
        [mkListing "a" "s" "ta" "2" true]).final := by
  decide

/-- C3 amended: a second engine run on the same input batch, starting from
the first run's saved ledger and final catalog, reports `new_count = 0`;
and — provided the first run's merged set fits within capacity — its final
catalog holds exactly the first run's records with every `is_new` flag
cleared (as a permutation: the records are re-sorted with all of them
equally not-new). -/
theorem C3_second_run (seen : List Str) (existingRaw fetched : List Listing) :
    (runEngine (runEngine seen existingRaw fetched).savedSeen
        (runEngine seen existingRaw fetched).final fetched).newCount = 0 ∧
      ((mergedAll seen existingRaw fetched).length ≤ CAP →
        List.Perm
          (runEngine (runEngine seen existingRaw fetched).savedSeen
            (runEngine seen existingRaw fetched).final fetched).final
          ((runEngine seen existingRaw fetched).final.map clearNew)) := by
  have hall : ∀ l ∈ fetched,
      smem l.id (runEngine seen existingRaw fetched).savedSeen = true := by
    intro l hl
    rw [smem_iff, runEngine_savedSeen, updateSeen_mem]
    exact Or.inr ⟨l, hl, rfl⟩
  have hsec := dedup_second_run seen (runEngine seen existingRaw fetched).savedSeen
    fetched ⟨[], [], []⟩ ⟨[], [], []⟩ hall rfl rfl rfl
  have hm2 : (dedupFetched (runEngine seen existingRaw fetched).savedSeen
      fetched).merged = ((dedupFetched seen fetched).merged).map clearNew := hsec.1
  have hn2 : (dedupFetched (runEngine seen existingRaw fetched).savedSeen
      fetched).newListings = [] := hsec.2
  constructor
  · rw [runEngine_newCount, hn2]
    rfl
  · intro hcap
    have hlen1 : (sortListings (mergedAll seen existingRaw fetched)).length ≤ CAP := by
      rw [(perm_sortListings _).length_eq]
      exact hcap
    have hfin1 : (runEngine seen existingRaw fetched).final =
        sortListings (mergedAll seen existingRaw fetched) := by
      rw [runEngine_final]
      exact List.take_of_length_le hlen1
    have hfperm : List.Perm (runEngine seen existingRaw fetched).final
        (mergedAll seen existingRaw fetched) := by
      rw [hfin1]
      exact perm_sortListings _
    have hfnodup : ((runEngine seen existingRaw fetched).final.map Listing.id).Nodup :=
      ((hfperm.map Listing.id).symm).nodup (mergedAll_ids_nodup seen existingRaw fetched)
    have hbd : buildDict (runEngine seen existingRaw fetched).final =
        (runEngine seen existingRaw fetched).final := buildDict_of_nodup _ hfnodup
    have hM1 : mergedAll seen existingRaw fetched =
        (dedupFetched seen fetched).merged ++
          carriedList (dedupFetched seen fetched).merged (buildDict existingRaw) := by
      unfold mergedAll
      exact carryForward_eq _ _
    have hM2 : mergedAll (runEngine seen existingRaw fetched).savedSeen
        (runEngine seen existingRaw fetched).final fetched =
        ((dedupFetched seen fetched).merged).map clearNew ++
          carriedList (((dedupFetched seen fetched).merged).map clearNew)
            (runEngine seen existingRaw fetched).final := by
      unfold mergedAll
      rw [hbd, hm2, carryForward_eq]
    have hcf2 : carriedList (((dedupFetched seen fetched).merged).map clearNew)
        (runEngine seen existingRaw fetched).final =
        ((runEngine seen existingRaw fetched).final.filter
          fun l => !(hasId l.id (((dedupFetched seen fetched).merged).map
            clearNew))).map clearNew :=
      carriedList_eq_filter _ _ hfnodup
    have hpred : (fun l : Listing =>
        !(hasId l.id (((dedupFetched seen fetched).merged).map clearNew)))
        = fun l : Listing => !(hasId l.id (dedupFetched seen fetched).merged) :=
      funext fun l => by rw [hasId_map_clearNew]
    have hfM1 : (mergedAll seen existingRaw fetched).filter
        (fun l => !(hasId l.id (dedupFetched seen fetched).merged)) =
        carriedList (dedupFetched seen fetched).merged (buildDict existingRaw) := by
      rw [hM1, List.filter_append]
      have hz : ((dedupFetched seen fetched).merged).filter
          (fun l => !(hasId l.id (dedupFetched seen fetched).merged)) = [] := by
        rw [List.filter_eq_nil_iff]
        intro a ha
        rw [hasId_iff.mpr ⟨a, ha, rfl⟩]
        simp
      have ho : (carriedList (dedupFetched seen fetched).merged
            (buildDict existingRaw)).filter
          (fun l => !(hasId l.id (dedupFetched seen fetched).merged)) =
          carriedList (dedupFetched seen fetched).merged (buildDict existingRaw) := by
        rw [List.filter_eq_self]
        intro a ha
        rw [carriedList_fresh _ _ a ha]
        rfl
      rw [hz, ho, List.nil_append]
    have hfc : List.Perm ((runEngine seen existingRaw fetched).final.filter
        fun l => !(hasId l.id (dedupFetched seen fetched).merged))
        (carriedList (dedupFetched seen fetched).merged (buildDict existingRaw)) := by
      rw [← hfM1]
      exact hfperm.filter _
    have hM2perm : List.Perm
        (mergedAll (runEngine seen existingRaw fetched).savedSeen
          (runEngine seen existingRaw fetched).final fetched)
        ((mergedAll seen existingRaw fetched).map clearNew) := by
      rw [hM2, hcf2, hpred, hM1, List.map_append]
      exact List.Perm.append_left _ (hfc.map clearNew)
    have hlen2 : (sortListings (mergedAll (runEngine seen existingRaw fetched).savedSeen
        (runEngine seen existingRaw fetched).final fetched)).length ≤ CAP := by
      rw [(perm_sortListings _).length_eq, hM2perm.length_eq, List.length_map]
      exact hcap
    have hfin2 : (runEngine (runEngine seen existingRaw fetched).savedSeen
        (runEngine seen existingRaw fetched).final fetched).final =
        sortListings (mergedAll (runEngine seen existingRaw fetched).savedSeen
          (runEngine seen existingRaw fetched).final fetched) := by
      rw [runEngine_final]
      exact List.take_of_length_le hlen2
    rw [hfin2]
    exact (perm_sortListings _).trans (hM2perm.trans (hfperm.symm.map clearNew))

/-- Witness for C3 at the concrete two-record run of the counterexample:
the capacity hypothesis holds and the second run's catalog is a
permutation of the first run's with flags cleared. -/
theorem C3_second_run_witness :
    (mergedAll [] [mkListing "b" "s" "tb" "1" true]
        [mkListing "a" "s" "ta" "2" true]).length ≤ CAP ∧
      List.Perm
        (runEngine
          (runEngine [] [mkListing "b" "s" "tb" "1" true]
            [mkListing "a" "s" "ta" "2" true]).savedSeen
          (runEngine [] [mkListing "b" "s" "tb" "1" true]
            [mkListing "a" "s" "ta" "2" true]).final
          [mkListing "a" "s" "ta" "2" true]).final
        ((runEngine [] [mkListing "b" "s" "tb" "1" true]
          [mkListing "a" "s" "ta" "2" true]).final.map clearNew) :=
  ⟨by decide,
    (C3_second_run [] [mkListing "b" "s" "tb" "1" true]
      [mkListing "a" "s" "ta" "2" true]).2 (by decide)⟩

/-! ## Claim C1 -/

/-- C1 counterexample: the claim makes `is_1969_camaro` true iff the text
has "camaro" (case-insensitively) and a word-bounded `1969` or `69` token,
and false when some other 1960–1979 year token appears without the `1969`
token.  On "camaro 1968 69" the iff clause demands `true` (it contains
"camaro" and a bounded `69`), but the code returns `false` because the
other-year rule fires first — the two clauses of the claim contradict each
other on this input, and the code follows the second. -/
theorem C1_counterexample :
    ¬ ((is_1969_camaro (str "camaro 1968 69") = true ↔
          (containsSub (str "camaro") (lowerStr (str "camaro 1968 69")) = true ∧
            (hasBoundedToken (str "1969") (str "camaro 1968 69") = true ∨
              hasBoundedToken (str "69") (str "camaro 1968 69") = true))) ∧
        (hasOtherYear (str "camaro 1968 69") = true →
          hasBoundedToken (str "1969") (str "camaro 1968 69") = false →
          is_1969_camaro (str "camaro 1968 69") = false)) := by
  decide

/-- C1 amended: `is_1969_camaro` returns false whenever the text contains
another word-bounded 4-digit year token in 1960–1979 while `1969` does not
occur as a substring; on any other text it returns true iff the text
contains "camaro" case-insensitively and either `1969` as a substring or
`69` as a word-bounded token (the `1969` test is a plain substring test,
not a word-bounded one). -/
theorem C1_relevance (text : Str) :
    (hasOtherYear text = true → containsSub (str "1969") text = false →
      is_1969_camaro text = false) ∧
      ((hasOtherYear text = false ∨ containsSub (str "1969") text = true) →
        (is_1969_camaro text = true ↔
          (containsSub (str "camaro") (lowerStr text) = true ∧
            (containsSub (str "1969") (lowerStr text) = true ∨
              hasBoundedToken (str "69") (lowerStr text) = true)))) := by
  constructor
  · intro hoy hsub
    simp only [is_1969_camaro]
    rw [hoy, hsub]
    rfl
  · intro hcase
    have hcond : (hasOtherYear text && !containsSub (str "1969") text) = false := by
      rcases hcase with h | h
      · rw [h]
        rfl
      · rw [h]
        simp
    simp only [is_1969_camaro]
    rw [hcond]
    simp [Bool.and_eq_true, Bool.or_eq_true]

/-- Witness for C1 on "camaro 1968": the other-year rule rejects it. -/
theorem C1_relevance_witness : is_1969_camaro (str "camaro 1968") = false :=
  (C1_relevance (str "camaro 1968")).1 (by decide) (by decide)

/-! ## Claim C7 -/

/-- C7 counterexample: the claim takes the first currency-prefixed digit
group *by position*.  On "C$5 US $7" the first such group by position is
the `C$`-prefixed `5`, but the code searches for `US $` over the whole
text first and returns `("$7", 7)`. -/
theorem C7_counterexample :
    ¬ (extract_price (str "C$5 US $7") =
        match firstGrp (str "C$5 US $7") with
        | some g => (pyInt g).map fun n => (36 :: g, n)
        | none => some ([], 0)) := by
  decide

theorem grpAfter_nil (pat : Str) : grpAfter pat [] = none := by
  unfold grpAfter
  by_cases h : beginsWith pat [] = true
  · rw [if_pos h]
    simp
  · rw [if_neg h]

theorem reSearch_eq_spec (pat : Str) :
    ∀ text : Str, reSearchGrp pat text = specSearchGrp pat text
  | [] => by
    unfold reSearchGrp specSearchGrp
    simp [grpAfter_nil]
  | c :: cs => by
    unfold specSearchGrp
    rw [List.tails_cons]
    cases h : grpAfter pat (c :: cs) with
    | some g =>
      rw [List.find?_cons_of_pos _ (by rw [h]; rfl)]
      show (grpAfter pat (c :: cs)).orElse (fun _ => reSearchGrp pat cs) =
        (some (c :: cs)).bind (grpAfter pat)
      rw [Option.some_bind, h]
      rfl
    | none =>
      rw [List.find?_cons_of_neg _ (by rw [h]; simp)]
      show (grpAfter pat (c :: cs)).orElse (fun _ => reSearchGrp pat cs) = _
      rw [h]
      show reSearchGrp pat cs = _
      have ih := reSearch_eq_spec pat cs
      unfold specSearchGrp at ih
      exact ih

/-- C7 amended: `extract_price` selects by pattern priority rather than
by position — the first `US $`-prefixed digit group anywhere in the text
if one exists, otherwise the first `$`-prefixed one, otherwise the first
`C$`-prefixed one — returning `("$" + group, amount with separators
stripped)`; with no match it returns `("", 0)`.  In particular on
"$45,000" the amount is 45000. -/
theorem C7_price_extraction :
    (∀ text : Str, extract_price text = spec_extract_price text) ∧
      extract_price (str "$45,000") = some (str "$45,000", 45000) := by
  constructor
  · intro text
    unfold extract_price spec_extract_price
    rw [reSearch_eq_spec, reSearch_eq_spec, reSearch_eq_spec]
  · decide

/-! ## Claim C9 -/

/-- C9 counterexample: the claim says a notifier failure is recovered
locally and the run still completes successfully.  There is no
`try`/`except` around `send_email` in `main`, so when the run has new
listings, credentials are present, and SMTP delivery raises, the exception
propagates and the run does not complete. -/
theorem C9_counterexample :
    (runMain [] [] [mkListing "a" "s" "t" "1" true] true true).2 =
      RunOutcome.raised := by
  decide

/-- C9 amended: the persisted catalog and seen ledger are written before
notification is attempted and are therefore unaffected by any notifier
failure; but the failure is not recovered — the run raises exactly when
there are new listings, credentials are present, and delivery fails. -/
theorem C9_notifier_failure (seen : List Str) (existingRaw fetched : List Listing)
    (creds raises : Bool) :
    (runMain seen existingRaw fetched creds raises).1 =
        { catalog := (runEngine seen existingRaw fetched).final,
          total := (runEngine seen existingRaw fetched).final.length,
          newCount := (runEngine seen existingRaw fetched).newCount,
          ledger := (runEngine seen existingRaw fetched).savedSeen } ∧
      ((runMain seen existingRaw fetched creds raises).2 = RunOutcome.raised ↔
        (creds = true ∧ raises = true ∧
          (runEngine seen existingRaw fetched).newListings ≠ [])) := by
  simp only [runMain]
  by_cases h1 : (runEngine seen existingRaw fetched).newListings.isEmpty = true
  · rw [if_pos h1]
    refine ⟨rfl, ?_⟩
    constructor
    · intro hc
      exact RunOutcome.noConfusion hc
    · rintro ⟨_, _, hne⟩
      exact absurd (List.isEmpty_iff.mp h1) hne
  · rw [if_neg h1]
    have hne : (runEngine seen existingRaw fetched).newListings ≠ [] := by
      intro he
      exact h1 (by rw [he]; rfl)
    cases creds
    · rw [if_pos (show (!false) = true from rfl)]
      refine ⟨rfl, ?_⟩
      constructor
      · intro hc
        exact RunOutcome.noConfusion hc
      · rintro ⟨hc, _, _⟩
        exact Bool.noConfusion hc
    · rw [if_neg (by simp)]
      cases raises
      · rw [if_neg (by simp)]
        refine ⟨rfl, ?_⟩
        constructor
        · intro hc
          exact RunOutcome.noConfusion hc
        · rintro ⟨_, hr, _⟩
          exact Bool.noConfusion hr
      · rw [if_pos rfl]
        exact ⟨rfl, ⟨fun _ => ⟨rfl, rfl, hne⟩, fun _ => rfl⟩⟩

/-! ## String lemmas for claim C8 -/

theorem pyLower_beq_low (k : Nat) (hk : k < 65) (c : Nat) :
    (pyLower c == k) = (c == k) := by
  unfold pyLower
  split
  · next h =>
    have h1 : (c + 32 == k) = false := beq_eq_false_iff_ne.mpr (by omega)
    have h2 : (c == k) = false := beq_eq_false_iff_ne.mpr (by omega)
    rw [h1, h2]
  · rfl

theorem isSpace_pyLower (c : Nat) : isSpace (pyLower c) = isSpace c := by
  unfold isSpace
  rw [pyLower_beq_low 32 (by omega) c, pyLower_beq_low 9 (by omega) c,
    pyLower_beq_low 10 (by omega) c, pyLower_beq_low 13 (by omega) c,
    pyLower_beq_low 11 (by omega) c, pyLower_beq_low 12 (by omega) c]

theorem pyLower_idem (c : Nat) : pyLower (pyLower c) = pyLower c := by
  unfold pyLower
  by_cases h : 65 ≤ c ∧ c ≤ 90
  · rw [if_pos h, if_neg (by omega)]
  · rw [if_neg h, if_neg h]

theorem lowerStr_takeWhile (p : Nat → Bool) (hp : ∀ c, p (pyLower c) = p c)
    (s : Str) : (lowerStr s).takeWhile p = lowerStr (s.takeWhile p) := by
  unfold lowerStr
  rw [List.takeWhile_map]
  have he : (p ∘ pyLower) = p := funext hp
  rw [he]

theorem lowerStr_dropWhile (p : Nat → Bool) (hp : ∀ c, p (pyLower c) = p c)
    (s : Str) : (lowerStr s).dropWhile p = lowerStr (s.dropWhile p) := by
  unfold lowerStr
  rw [List.dropWhile_map]
  have he : (p ∘ pyLower) = p := funext hp
  rw [he]

theorem lowerStr_reverse (s : Str) : (lowerStr s).reverse = lowerStr s.reverse := by
  unfold lowerStr
  exact (List.map_reverse pyLower s).symm

theorem pyStrip_lowerStr (s : Str) : pyStrip (lowerStr s) = lowerStr (pyStrip s) := by
  unfold pyStrip
  rw [lowerStr_dropWhile isSpace isSpace_pyLower, lowerStr_reverse,
    lowerStr_dropWhile isSpace isSpace_pyLower, lowerStr_reverse]

theorem cutQF_lowerStr (s : Str) : cutQF (lowerStr s) = lowerStr (cutQF s) := by
  unfold cutQF
  rw [lowerStr_takeWhile (fun c => !(c == 63))
      (fun c => by simp only [pyLower_beq_low 63 (by omega) c]) s,
    lowerStr_takeWhile (fun c => !(c == 35))
      (fun c => by simp only [pyLower_beq_low 35 (by omega) c])]

theorem pyLower_opt_beq (o : Option Nat) (k : Nat) (hk : k < 65) :
    (o.map pyLower == some k) = (o == some k) := by
  cases o with
  | none => rfl
  | some c =>
    show (some (pyLower c) == some k) = (some c == some k)
    rw [Option.some_beq_some, Option.some_beq_some, pyLower_beq_low k hk c]

theorem subSlashEnd_lowerStr (s : Str) :
    subSlashEnd (lowerStr s) = lowerStr (subSlashEnd s) := by
  unfold subSlashEnd
  rw [lowerStr_reverse]
  have hh : (lowerStr s.reverse).head? = s.reverse.head?.map pyLower := by
    unfold lowerStr
    rw [List.head?_map]
  have ht : (lowerStr s.reverse).tail = lowerStr s.reverse.tail := by
    unfold lowerStr
    rw [List.map_tail]
  rw [hh, ht, pyLower_opt_beq _ 47 (by omega)]
  by_cases h47 : (s.reverse.head? == some 47) = true
  · rw [if_pos h47, if_pos h47, lowerStr_reverse]
  · rw [if_neg h47, if_neg h47]
    have hh2 : (lowerStr s.reverse.tail).head? = s.reverse.tail.head?.map pyLower := by
      unfold lowerStr
      rw [List.head?_map]
    rw [hh2, pyLower_opt_beq _ 10 (by omega), pyLower_opt_beq _ 47 (by omega)]
    by_cases h10 : (s.reverse.head? == some 10 &&
        s.reverse.tail.head? == some 47) = true
    · rw [if_pos h10, if_pos h10]
      have ht2 : (lowerStr s.reverse.tail).tail = lowerStr s.reverse.tail.tail := by
        unfold lowerStr
        rw [← List.map_tail]
      rw [ht2]
      have hcons : (10 : Nat) :: lowerStr s.reverse.tail.tail =
          lowerStr (10 :: s.reverse.tail.tail) := rfl
      rw [hcons, lowerStr_reverse]
    · rw [if_neg h10, if_neg h10]

theorem takeWhile_takeWhileB (p q : Nat → Bool) :
    ∀ l : Str, (l.takeWhile q).takeWhile p = l.takeWhile fun a => q a && p a
  | [] => rfl
  | a :: l => by
    rw [List.takeWhile_cons, List.takeWhile_cons]
    by_cases hq : q a = true
    · rw [if_pos hq, List.takeWhile_cons]
      by_cases hp : p a = true
      · rw [if_pos hp, if_pos (by rw [hq, hp]; rfl), takeWhile_takeWhileB p q l]
      · rw [if_neg hp, if_neg (by simp [hq, bfalse hp])]
    · rw [if_neg hq, if_neg (by simp [bfalse hq])]
      rfl

theorem cutQF_fused (s : Str) :
    cutQF s = s.takeWhile fun c => !(c == 63) && !(c == 35) := by
  unfold cutQF
  rw [takeWhile_takeWhileB]

theorem takeWhile_all_eq {p : Nat → Bool} :
    ∀ {l : Str}, (∀ x ∈ l, p x = true) → l.takeWhile p = l
  | [], _ => rfl
  | a :: l, h => by
    rw [List.takeWhile_cons, if_pos (h a (List.mem_cons_self a l)),
      takeWhile_all_eq fun x hx => h x (List.mem_cons_of_mem a hx)]

theorem takeWhile_append_cons_stop {p : Nat → Bool} {c : Nat} (hc : p c = false) :
    ∀ (u v : Str), (u ++ c :: v).takeWhile p = u.takeWhile p
  | [], v => by
    rw [List.nil_append, List.takeWhile_cons, if_neg (by simp [hc])]
    rfl
  | a :: u, v => by
    rw [List.cons_append, List.takeWhile_cons, List.takeWhile_cons]
    by_cases ha : p a = true
    · rw [if_pos ha, if_pos ha, takeWhile_append_cons_stop hc u v]
    · rw [if_neg ha, if_neg ha]

theorem takeWhile_append_of_all {p : Nat → Bool} :
    ∀ {u : Str}, (∀ x ∈ u, p x = true) →
      ∀ v : Str, (u ++ v).takeWhile p = u ++ v.takeWhile p
  | [], _, v => rfl
  | a :: u, h, v => by
    rw [List.cons_append, List.takeWhile_cons,
      if_pos (h a (List.mem_cons_self a u)),
      takeWhile_append_of_all (fun x hx => h x (List.mem_cons_of_mem a hx)) v,
      List.cons_append]

theorem takeWhile_append_of_stop {p : Nat → Bool} :
    ∀ {u : Str}, ¬(∀ x ∈ u, p x = true) →
      ∀ v : Str, (u ++ v).takeWhile p = u.takeWhile p
  | [], h, _ => absurd (fun x hx => absurd hx (List.not_mem_nil x)) h
  | a :: u, h, v => by
    by_cases ha : p a = true
    · have h' : ¬(∀ x ∈ u, p x = true) := fun hall => h fun x hx => by
        rcases List.mem_cons.mp hx with rfl | hx'
        · exact ha
        · exact hall x hx'
      rw [List.cons_append, List.takeWhile_cons, List.takeWhile_cons, if_pos ha,
        if_pos ha, takeWhile_append_of_stop h' v]
    · rw [List.cons_append, List.takeWhile_cons, List.takeWhile_cons, if_neg ha,
        if_neg ha]

theorem dropWhile_head_false {p : Nat → Bool} :
    ∀ {l : Str} {h : Nat} {t : Str}, l.dropWhile p = h :: t → p h = false
  | [], h, t, he => by simp at he
  | a :: as, h, t, he => by
    rw [List.dropWhile_cons] at he
    by_cases ha : p a = true
    · rw [if_pos ha] at he
      exact dropWhile_head_false he
    · rw [if_neg ha] at he
      rw [← (List.cons.injEq .. ).mp he |>.1]
      exact bfalse ha

theorem dropWhile_append_last {p : Nat → Bool} {a : Nat} (ha : p a = false) :
    ∀ xs : Str, ∃ C, (xs ++ [a]).dropWhile p = C ++ [a]
  | [] => ⟨[], by rw [List.nil_append, List.dropWhile_cons, if_neg (by simp [ha])]⟩
  | x :: xs => by
    by_cases hx : p x = true
    · obtain ⟨C, hC⟩ := dropWhile_append_last ha xs
      exact ⟨C, by rw [List.cons_append, List.dropWhile_cons, if_pos hx, hC]⟩
    · exact ⟨x :: xs, by rw [List.cons_append, List.dropWhile_cons, if_neg hx]⟩

/-- `pyStrip` output, when non-empty, starts with a non-whitespace
character. -/
theorem pyStrip_head (s : Str) :
    pyStrip s = [] ∨ ∃ h t, pyStrip s = h :: t ∧ isSpace h = false := by
  unfold pyStrip
  cases hA : s.dropWhile isSpace with
  | nil => left; rfl
  | cons a as =>
    have haf : isSpace a = false := dropWhile_head_false hA
    rw [List.reverse_cons]
    obtain ⟨C, hC⟩ := dropWhile_append_last haf as.reverse
    rw [hC, List.reverse_append]
    right
    exact ⟨a, C.reverse, rfl, haf⟩

/-- `pyStrip` output, when non-empty, ends with a non-whitespace
character. -/
theorem pyStrip_last (s : Str) :
    pyStrip s = [] ∨
      ∃ h t, (pyStrip s).reverse = h :: t ∧ isSpace h = false := by
  unfold pyStrip
  cases hB : (s.dropWhile isSpace).reverse.dropWhile isSpace with
  | nil => left; rfl
  | cons b bs =>
    right
    rw [List.reverse_reverse]
    exact ⟨b, bs, rfl, dropWhile_head_false hB⟩

theorem pyStrip_idem (s : Str) : pyStrip (pyStrip s) = pyStrip s := by
  rcases pyStrip_head s with h0 | ⟨h, t, hht, hns⟩
  · rw [h0]
    rfl
  · rcases pyStrip_last s with h0 | ⟨h2, t2, hht2, hns2⟩
    · rw [h0]
      rfl
    · have hf : (pyStrip s).dropWhile isSpace = pyStrip s := by
        rw [hht, List.dropWhile_cons, if_neg (by simp [hns])]
      show (((pyStrip s).dropWhile isSpace).reverse.dropWhile isSpace).reverse =
        pyStrip s
      rw [hf, hht2, List.dropWhile_cons, if_neg (by simp [hns2]), ← hht2,
        List.reverse_reverse]

theorem map_id_of_mem {f : Nat → Nat} {l : Str} (h : ∀ x ∈ l, f x = x) :
    l.map f = l := by
  rw [show l.map f = l.map id from List.map_congr_left h, List.map_id]

theorem mem_pyStrip_sub {s : Str} : ∀ x ∈ pyStrip s, x ∈ s := by
  intro x hx
  unfold pyStrip at hx
  rw [List.mem_reverse] at hx
  have h1 := (List.dropWhile_sublist isSpace).subset hx
  rw [List.mem_reverse] at h1
  exact (List.dropWhile_sublist isSpace).subset h1

theorem subSlashEnd_subset {s : Str} : ∀ x ∈ subSlashEnd s, x ∈ s := by
  intro x hx
  unfold subSlashEnd at hx
  by_cases h1 : (s.reverse.head? == some 47) = true
  · rw [if_pos h1, List.mem_reverse] at hx
    exact List.mem_reverse.mp ((List.tail_sublist _).subset hx)
  · rw [if_neg h1] at hx
    by_cases h2 : (s.reverse.head? == some 10 &&
        s.reverse.tail.head? == some 47) = true
    · rw [if_pos h2, List.mem_reverse] at hx
      rcases List.mem_cons.mp hx with rfl | hx'
      · have h10 : s.reverse.head? = some 10 :=
          beq_iff_eq.mp (Bool.and_eq_true .. |>.mp h2).1
        cases hsr : s.reverse with
        | nil =>
          rw [hsr] at h10
          exact absurd h10 (by simp)
        | cons hh tt =>
          rw [hsr, List.head?_cons] at h10
          rw [← List.mem_reverse, hsr, Option.some_inj.mp h10]
          exact List.mem_cons_self _ _
      · exact List.mem_reverse.mp
          ((List.tail_sublist _).subset ((List.tail_sublist _).subset hx'))
    · rw [if_neg h2] at hx
      exact hx

theorem clean_url_qf_free (u : Str) :
    ∀ x ∈ clean_url u, (!(x == 63) && !(x == 35)) = true := by
  intro x hx
  have h1 : x ∈ lowerStr (subSlashEnd (cutQF u)) := mem_pyStrip_sub x hx
  rcases List.mem_map.mp h1 with ⟨y, hy, rfl⟩
  have h2 : y ∈ cutQF u := subSlashEnd_subset y hy
  rw [cutQF_fused] at h2
  have h3 := List.mem_takeWhile_imp h2
  show (!(pyLower y == 63) && !(pyLower y == 35)) = true
  rw [pyLower_beq_low 63 (by omega) y, pyLower_beq_low 35 (by omega) y]
  exact h3

theorem lowerStr_clean (u : Str) : lowerStr (clean_url u) = clean_url u := by
  apply map_id_of_mem
  intro x hx
  have h1 : x ∈ lowerStr (subSlashEnd (cutQF u)) := mem_pyStrip_sub x hx
  rcases List.mem_map.mp h1 with ⟨y, _, rfl⟩
  exact pyLower_idem y

theorem clean_url_via_lower (u : Str) :
    clean_url u = pyStrip (subSlashEnd (cutQF (lowerStr u))) := by
  unfold clean_url
  rw [← subSlashEnd_lowerStr, ← cutQF_lowerStr]

theorem clean_url_append_query (u q : Str) :
    clean_url (u ++ 63 :: q) = clean_url u := by
  unfold clean_url
  rw [cutQF_fused, cutQF_fused, takeWhile_append_cons_stop (by rfl) u q]

theorem clean_url_append_frag (u f : Str) :
    clean_url (u ++ 35 :: f) = clean_url u := by
  unfold clean_url
  rw [cutQF_fused, cutQF_fused, takeWhile_append_cons_stop (by rfl) u f]

theorem subSlashEnd_append_slash (u : Str) : subSlashEnd (u ++ [47]) = u := by
  have hrev : (u ++ [47]).reverse = 47 :: u.reverse := by
    rw [List.reverse_append]
    rfl
  unfold subSlashEnd
  rw [hrev]
  rw [if_pos (by rfl)]
  show u.reverse.reverse = u
  rw [List.reverse_reverse]

theorem clean_url_append_slash (u : Str) (hu : subSlashEnd u = u) :
    clean_url (u ++ [47]) = clean_url u := by
  by_cases hall : ∀ x ∈ u, (!(x == 63) && !(x == 35)) = true
  · have hcu : cutQF u = u := by
      rw [cutQF_fused]
      exact takeWhile_all_eq hall
    have hc2 : cutQF (u ++ [47]) = u ++ [47] := by
      rw [cutQF_fused, takeWhile_append_of_all hall]
      rfl
    unfold clean_url
    rw [hc2, hcu, subSlashEnd_append_slash, hu]
  · unfold clean_url
    rw [cutQF_fused, cutQF_fused, takeWhile_append_of_stop hall [47]]

theorem clean_url_idem (u : Str) (h : (clean_url u).getLast? ≠ some 47) :
    clean_url (clean_url u) = clean_url u := by
  have hqf : cutQF (clean_url u) = clean_url u := by
    rw [cutQF_fused]
    exact takeWhile_all_eq (clean_url_qf_free u)
  have hsub : subSlashEnd (clean_url u) = clean_url u := by
    rcases pyStrip_last (lowerStr (subSlashEnd (cutQF u))) with h0 | ⟨h2, t2, hht2, hns2⟩
    · have h0' : clean_url u = [] := h0
      rw [h0']
      rfl
    · have hht2' : (clean_url u).reverse = h2 :: t2 := hht2
      have hne47 : (h2 == 47) = false := by
        rw [beq_eq_false_iff_ne]
        intro he
        apply h
        rw [← List.head?_reverse, hht2', List.head?_cons, he]
      have hne10 : (h2 == 10) = false := by
        rw [beq_eq_false_iff_ne]
        intro he
        rw [he] at hns2
        exact absurd hns2 (by simp [isSpace])
      unfold subSlashEnd
      rw [hht2', List.head?_cons]
      rw [if_neg (by rw [Option.some_beq_some]; simp [hne47]),
        if_neg (by rw [Option.some_beq_some]; simp [hne10])]
  have hstrip : pyStrip (clean_url u) = clean_url u :=
    pyStrip_idem (lowerStr (subSlashEnd (cutQF u)))
  show pyStrip (lowerStr (subSlashEnd (cutQF (clean_url u)))) = clean_url u
  rw [hqf, hsub, lowerStr_clean, hstrip]

/-! ## Claim C8 -/

/-- C8 counterexample: the claim's "equivalently" clause demands
`uid(url) = uid(canonicalize(url))` for every URL, but `clean_url` strips
only one trailing slash, so it is not idempotent: on "http://x//" it
yields "http://x/", whose own cleaning is "http://x", and the two MD5
fingerprints differ. -/
theorem C8_counterexample :
    uid (str "http://x//") ≠ uid (clean_url (str "http://x//")) := by
  decide

/-- C8 amended: `uid` is invariant under appending a query string (`?...`)
or fragment (`#...`), under letter-case changes, and under appending one
trailing slash to a URL from which the trailing-slash rule strips nothing;
and `uid(url) = uid(clean_url(url))` holds for every URL whose cleaned
form does not itself end in a slash. -/
theorem C8_identity_stability :
    (∀ u q : Str, uid (u ++ 63 :: q) = uid u) ∧
      (∀ u f : Str, uid (u ++ 35 :: f) = uid u) ∧
      (∀ u v : Str, lowerStr u = lowerStr v → uid u = uid v) ∧
      (∀ u : Str, subSlashEnd u = u → uid (u ++ [47]) = uid u) ∧
      (∀ u : Str, (clean_url u).getLast? ≠ some 47 →
        uid (clean_url u) = uid u) := by
  refine ⟨?_, ?_, ?_, ?_, ?_⟩
  · intro u q
    unfold uid
    rw [clean_url_append_query]
  · intro u f
    unfold uid
    rw [clean_url_append_frag]
  · intro u v h
    unfold uid
    rw [clean_url_via_lower u, clean_url_via_lower v, h]
  · intro u hu
    unfold uid
    rw [clean_url_append_slash u hu]
  · intro u h
    unfold uid
    rw [clean_url_idem u h]

/-- Witness for C8: appending one slash to a slash-free URL (here also
exercising the case-invariance of the identity through `uid` itself). -/
theorem C8_identity_stability_witness :
    subSlashEnd (str "https://A.test/x") = str "https://A.test/x" ∧
      uid (str "https://A.test/x" ++ [47]) = uid (str "https://A.test/x") :=
  ⟨by decide,
    C8_identity_stability.2.2.2.1 (str "https://A.test/x") (by decide)⟩

/-- Witness for C9 at a concrete failing delivery: the persisted ledger is
exactly the engine's saved ledger even though the notifier raised. -/
theorem C9_notifier_failure_witness :
    (runMain [] [] [mkListing "a" "s" "t" "1" true] true true).1.ledger =
      (runEngine [] [] [mkListing "a" "s" "t" "1" true]).savedSeen := by
  rw [(C9_notifier_failure [] [] [mkListing "a" "s" "t" "1" true] true true).1]
